import Mathlib

/-!
Verification of the frame-synthesis pipeline in `stereo_rerender.py`:
the RGB depth codec, transformation-stream rebasing, the stereo eye-shift
sequence, background point-cloud accumulation and decimation cadence,
frame-layout assembly, and the rectilinear-to-equirectangular remap.
Machine floats are modelled by exact rationals/reals; numpy arrays by lists.
-/

set_option maxRecDepth 4000

namespace StereoRerender

/-! ### Depth codec (`stereo_rerender.py` lines 239–243)

The source builds a 32-bit little-endian value whose byte 3 (most
significant) is the truncated average `(r+g)/2` and byte 2 is `b`, the two
low bytes staying zero, then divides by `255^4 / max_depth`. -/

/-- The 32-bit integer reconstructed by the decoder: byte 3 is
`(r+g)/2` (integer division, as the float-to-uint8 cast truncates) and
byte 2 is `b`; bytes 0 and 1 stay zero. -/
def depth_value (r g b : ℕ) : ℕ :=
  ((r + g) / 2) * 2 ^ 24 + b * 2 ^ 16

/-- `depth = value / ((255**4)/MODEL_maxOUTPUT_depth)`, in exact rational
arithmetic. -/
def decode_depth (max_depth : ℚ) (r g b : ℕ) : ℚ :=
  (depth_value r g b : ℚ) / ((255 ^ 4 : ℚ) / max_depth)

end StereoRerender

namespace StereoRerender

/-- C1 counterexample: at `r = g = b = 255` with `max_depth = 20` the decoded
depth exceeds `max_depth`, because the reconstructed value `255·(2²⁴ + 2¹⁶) =
4294901760` is larger than the divisor's numerator `255⁴ = 4228250625`. -/
theorem decode_depth_exceeds_max_depth :
    20 < decode_depth 20 255 255 255 := by
  norm_num [decode_depth, depth_value]

/-- C1 (amended): for channels in `[0,255]` and `max_depth > 0`, the decoded
depth lies in `[0, max_depth · 16842752/16581375]` (the upper end is
`≈ 1.0158 · max_depth`, attained at `r = g = b = 255`). -/
theorem decode_depth_range (max_depth : ℚ) (r g b : ℕ)
    (hr : r ≤ 255) (hg : g ≤ 255) (hb : b ≤ 255) (hmd : 0 < max_depth) :
    0 ≤ decode_depth max_depth r g b ∧
      decode_depth max_depth r g b ≤ max_depth * (16842752 / 16581375) := by
  have hval : depth_value r g b ≤ 4294901760 := by
    have h1 : (r + g) / 2 ≤ 255 := by omega
    have h2 : ((r + g) / 2) * 2 ^ 24 ≤ 255 * 2 ^ 24 :=
      Nat.mul_le_mul_right _ h1
    have h3 : b * 2 ^ 16 ≤ 255 * 2 ^ 16 := Nat.mul_le_mul_right _ hb
    unfold depth_value
    omega
  have hdiv : (0 : ℚ) < (255 ^ 4 : ℚ) / max_depth := by positivity
  constructor
  · unfold decode_depth
    positivity
  · unfold decode_depth
    rw [div_le_iff₀ hdiv]
    have hcast : ((depth_value r g b : ℕ) : ℚ) ≤ (4294901760 : ℚ) := by
      exact_mod_cast hval
    calc ((depth_value r g b : ℕ) : ℚ) ≤ (4294901760 : ℚ) := hcast
      _ = 16842752 / 16581375 * 255 ^ 4 := by norm_num
      _ = max_depth * (16842752 / 16581375) * ((255 ^ 4 : ℚ) / max_depth) := by
          field_simp
          ring

/-- C1 witness: the amended range theorem instantiated at
`max_depth = 20`, `r = g = 200`, `b = 17`. -/
theorem decode_depth_range_witness :
    0 ≤ decode_depth 20 200 200 17 ∧
      decode_depth 20 200 200 17 ≤ 20 * (16842752 / 16581375) :=
  decode_depth_range 20 200 200 17 (by norm_num) (by norm_num) (by norm_num)
    (by norm_num)

/-- C9: decoding is a function of the truncated average `(r+g)/2` and the
blue channel alone — two pixels agreeing on those decode identically. -/
theorem decode_depth_depends_only_on_avg_and_blue (max_depth : ℚ)
    (r₁ g₁ b₁ r₂ g₂ b₂ : ℕ)
    (havg : (r₁ + g₁) / 2 = (r₂ + g₂) / 2) (hb : b₁ = b₂) :
    decode_depth max_depth r₁ g₁ b₁ = decode_depth max_depth r₂ g₂ b₂ := by
  unfold decode_depth depth_value
  rw [havg, hb]

/-- C9 witness: pixels `(10,12,5)` and `(11,11,5)` share `(r+g)/2 = 11` and
`b = 5`, so they decode to the same depth. -/
theorem decode_depth_depends_only_on_avg_and_blue_witness :
    (10 + 12) / 2 = (11 + 11) / 2 ∧
      decode_depth 20 10 12 5 = decode_depth 20 11 11 5 :=
  ⟨by norm_num,
    decode_depth_depends_only_on_avg_and_blue 20 10 12 5 11 11 5 (by norm_num)
      rfl⟩

end StereoRerender

namespace StereoRerender

/-! ### Stereo eye-shift sequence (`stereo_rerender.py` lines 214–215 and 341–365)

The driver computes `left_shift = -(pd/1000)/2` and `right_shift =
+(pd/1000)/2`.  In the non-Touchly1 render path the scene object is moved by
`[-left_shift,0,0]`, the left eye is rendered, the scene is moved back by
`[left_shift,0,0]`, then moved by `[-right_shift,0,0]` and the right eye is
rendered.  No translation follows the right-eye render. -/

/-- A point / scene offset in 3-space, exact rational coordinates. -/
abbrev Vec3 := ℚ × ℚ × ℚ

/-- `mesh.translate(v)`: in-place addition of an offset to the scene pose. -/
def translate (p v : Vec3) : Vec3 := (p.1 + v.1, p.2.1 + v.2.1, p.2.2 + v.2.2)

/-- `left_shift = -(args.pupillary_distance/1000)/2` (line 214). -/
def left_shift (pd : ℚ) : ℚ := -(pd / 1000) / 2

/-- `right_shift = +(args.pupillary_distance/1000)/2` (line 215). -/
def right_shift (pd : ℚ) : ℚ := pd / 1000 / 2

/-- The exact sequence of `mesh.translate` calls one stereo frame applies to
the scene (lines 342, 361, 364); renders happen between them but do not move
the scene. -/
def stereo_frame_translations (pd : ℚ) : List Vec3 :=
  [(-left_shift pd, 0, 0), (left_shift pd, 0, 0), (-right_shift pd, 0, 0)]

/-- Scene pose after one stereo frame's eye renders, starting from pose `p`. -/
def stereo_frame_pos (pd : ℚ) (p : Vec3) : Vec3 :=
  (stereo_frame_translations pd).foldl translate p

/-- Scene pose after `k` stereo frames (the pose persists across frames for
the background cloud and the mesh hint, which are translated in place). -/
def stereo_run_pos (pd : ℚ) (p : Vec3) : ℕ → Vec3
  | 0 => p
  | k + 1 => stereo_frame_pos pd (stereo_run_pos pd p k)

/-- C2 evidence: with the default pupillary distance of 63 mm, a scene that
starts a frame at the origin ends the frame's renders at
`(-63/2000, 0, 0)` — the right-eye shift is never reverted — so the net
frame translation is not zero. -/
theorem stereo_frame_net_shift_nonzero :
    stereo_frame_pos 63 (0, 0, 0) = (-(63 / 2000 : ℚ), 0, 0) ∧
      stereo_frame_pos 63 (0, 0, 0) ≠ (0, 0, 0) := by
  constructor
  · norm_num [stereo_frame_pos, stereo_frame_translations, translate,
      left_shift, right_shift]
  · norm_num [stereo_frame_pos, stereo_frame_translations, translate,
      left_shift, right_shift]

/-- The general drift law behind C2: every stereo frame leaves the scene
translated by `-right_shift` along x, so after `k` frames the persistent
scene object has drifted by `-k · pd/2000`. -/
theorem stereo_run_pos_drift (pd : ℚ) (p : Vec3) (k : ℕ) :
    stereo_run_pos pd p k = (p.1 - k * (pd / 2000), p.2.1, p.2.2) := by
  induction k with
  | zero => simp [stereo_run_pos]
  | succ n ih =>
      rw [stereo_run_pos, ih]
      simp only [stereo_frame_pos, stereo_frame_translations, translate,
        left_shift, right_shift, List.foldl]
      push_cast
      simp only [Prod.mk.injEq]
      refine ⟨by ring, by ring, by ring⟩

/-- Witness for the drift law at `pd = 63`, `p = (0,0,0)`, `k = 2`. -/
theorem stereo_run_pos_drift_witness :
    stereo_run_pos 63 (0, 0, 0) 2 = (0 - 2 * ((63 : ℚ) / 2000), 0, 0) :=
  stereo_run_pos_drift 63 (0, 0, 0) 2

end StereoRerender

namespace StereoRerender

/-! ### Transformation-stream rebasing (`stereo_rerender.py` lines 149–153)

When `--transformation_lock_frame` is nonzero, the driver takes the matrix at
the lock index, inverts it with `np.linalg.inv`, and right-multiplies every
matrix in the list by that inverse.  When the lock index is `0` (the argparse
default) the whole block is skipped and no rebasing happens at all. -/

/-- 4×4 transformation matrix over exact rationals. -/
abbrev Mat4 := Matrix (Fin 4) (Fin 4) ℚ

/-- `np.linalg.inv`: the true matrix inverse, here written via the adjugate
so that it is meaningful exactly when the determinant is nonzero. -/
def linalg_inv (A : Mat4) : Mat4 := A.det⁻¹ • A.adjugate

/-- Lines 149–153: rebase only when the lock index differs from `0`; each
matrix is right-multiplied (`@`) by the inverse of the lock matrix. -/
def rebase_transformations (ts : List Mat4) (lock : ℕ) : List Mat4 :=
  if lock ≠ 0 then ts.map (fun t => t * linalg_inv (ts.getD lock 1)) else ts

/-- For a nonsingular matrix, the embedded `np.linalg.inv` is a right
inverse: `A ⬝ A⁻¹ = 1`. -/
theorem mul_linalg_inv_eq_one (A : Mat4) (hdet : A.det ≠ 0) :
    A * linalg_inv A = 1 := by
  unfold linalg_inv
  rw [Matrix.mul_smul, Matrix.mul_adjugate, smul_smul,
    inv_mul_cancel₀ hdet, one_smul]

/-- C3 counterexample: with lock-frame index `0` the code skips rebasing
entirely, so a transformation list whose first entry is `3·I` (invertible)
still has `3·I ≠ I` at the lock index afterwards. -/
theorem rebase_lock_zero_not_identity :
    (rebase_transformations [(3 : ℚ) • (1 : Mat4)] 0).getD 0 1 ≠ 1 := by
  intro h
  simp only [rebase_transformations, ne_eq, not_true_eq_false, if_false,
    List.getD_cons_zero] at h
  have h00 := congrFun (congrFun h 0) 0
  simp [Matrix.smul_apply, Matrix.one_apply] at h00

/-- C3 (amended): for every nonzero lock index in range whose matrix is
invertible, rebasing maps each `T_i` to `T_i ⬝ inverse(T_lock)`, and the
matrix at the lock index becomes the identity. -/
theorem rebase_transformations_spec (ts : List Mat4) (lock : ℕ)
    (hlock : lock ≠ 0) (hlt : lock < ts.length)
    (hdet : (ts.getD lock 1).det ≠ 0) :
    (∀ i, i < ts.length →
        (rebase_transformations ts lock).getD i 1 =
          ts.getD i 1 * linalg_inv (ts.getD lock 1)) ∧
      (rebase_transformations ts lock).getD lock 1 = 1 := by
  have hmap : ∀ i, i < ts.length →
      (rebase_transformations ts lock).getD i 1 =
        ts.getD i 1 * linalg_inv (ts.getD lock 1) := by
    intro i hi
    simp only [rebase_transformations, if_pos hlock]
    simp [List.getD_eq_getElem?_getD, List.getElem?_map,
      List.getElem?_eq_getElem hi]
  refine ⟨hmap, ?_⟩
  rw [hmap lock hlt]
  exact mul_linalg_inv_eq_one _ hdet

/-- C3 witness: the list `[3·I, I]` with lock index `1` — after rebasing the
entry at the lock index is the identity and entry `0` equals
`T₀ ⬝ inverse(T₁)`. -/
theorem rebase_transformations_spec_witness :
    (rebase_transformations [(3 : ℚ) • (1 : Mat4), 1] 1).getD 1 1 = 1 ∧
      (rebase_transformations [(3 : ℚ) • (1 : Mat4), 1] 1).getD 0 1 =
        ([(3 : ℚ) • (1 : Mat4), 1].getD 0 1) *
          linalg_inv ([(3 : ℚ) • (1 : Mat4), 1].getD 1 1) :=
  ⟨(rebase_transformations_spec [(3 : ℚ) • (1 : Mat4), 1] 1 (by decide)
        (by decide) (by simp)).2,
    (rebase_transformations_spec [(3 : ℚ) • (1 : Mat4), 1] 1 (by decide)
        (by decide) (by simp)).1 0 (by decide)⟩

end StereoRerender

namespace StereoRerender

/-! ### Background artifact save / load (`stereo_rerender.py` lines 208–211 and 399)

`--save_background` writes `np.save(path, np.array([bg_points,
bg_point_colors]))`; `--load_background` does `loaded_bg = np.load(path)`
and then assigns `bg_points = loaded_bg[0]`, `bg_point_colors =
loaded_bg[1]`.  A two-element artifact whose members have *different*
lengths can only exist on disk as an object-dtype array (a ragged
`np.array` is object-dtype where numpy builds it at all), and `np.load` —
`allow_pickle=False` by default — raises `ValueError` on object arrays, so
such an artifact errors out at line 209, before the frame loop.  With
matching lengths the artifact is a numeric `(2, N, 3)` array, loads
cleanly, and lines 210–211 restore the two parallel arrays. -/

/-- `np.save(path, np.array([bg_points, bg_point_colors]))`: the persisted
artifact is the pair of parallel arrays. -/
def save_background (pts cols : List Vec3) : List Vec3 × List Vec3 :=
  (pts, cols)

/-- Lines 208–211 together with `np.load`'s semantics: a mismatched-length
artifact is necessarily object-dtype and `np.load` (default
`allow_pickle=False`) raises on it — modelled as `none`; a matching-length
artifact deserializes and elements `0` and `1` become the points and the
colors. -/
def load_background (loaded_bg : List Vec3 × List Vec3) :
    Option (List Vec3 × List Vec3) :=
  if loaded_bg.1.length = loaded_bg.2.length then
    some (loaded_bg.1, loaded_bg.2)
  else none

/-- C4: loading an artifact with mismatched array lengths fails (the
`np.load` `ValueError` fires before any frame processing) rather than being
accepted or truncated, while for matching lengths loading restores exactly
the two parallel arrays that saving wrote. -/
theorem load_background_validates (pts cols : List Vec3) :
    (pts.length ≠ cols.length → load_background (pts, cols) = none) ∧
      (pts.length = cols.length →
        load_background (save_background pts cols) = some (pts, cols)) := by
  constructor
  · intro hne
    unfold load_background
    rw [if_neg hne]
  · intro heq
    unfold load_background save_background
    rw [if_pos heq]

/-- C4 witness: a 2-point/1-color artifact is rejected at load, and a
1-point/1-color artifact round-trips through save and load exactly. -/
theorem load_background_validates_witness :
    load_background ([(1, 2, 3), (4, 5, 6)], [(0, 0, 0)]) = none ∧
      load_background (save_background [(1, 2, 3)] [(0, 0, 0)]) =
        some ([(1, 2, 3)], [(0, 0, 0)]) :=
  ⟨(load_background_validates [(1, 2, 3), (4, 5, 6)] [(0, 0, 0)]).1
      (by decide),
    (load_background_validates [(1, 2, 3)] [(0, 0, 0)]).2 rfl⟩

end StereoRerender

namespace StereoRerender

/-! ### Per-frame driver: fast path, mask intersection, decimation cadence
(`stereo_rerender.py` lines 217–302)

`frame_n` starts at `0` and is incremented at the top of the loop, so the
first processed frame carries counter `1`.  When `transformations is None`
and `--touchly1` is set, the fast path (lines 246–250) is taken and the
`else` branch — the only place the mask video is read and the background
cloud is touched — never runs.  Otherwise, with a mask video, the mask frame
is read, its sub-128 pixels are intersected with the collaborator's
not-an-edge indices via `np.intersect1d`, the selected vertices and colors
are appended to the cloud, and on counters divisible by 10 the cloud is
passed to `perspective_aware_down_sample` with cell size `0.003`. -/

/-- `np.where(mask_img1d < 128)[0]`: indices of mask pixels whose grayscale
value is below 128. -/
def bg_mask_indices (mask : List ℕ) : List ℕ :=
  (List.range mask.length).filter (fun i => mask.getD i 0 < 128)

/-- `np.intersect1d`: the sorted, duplicate-free list of values present in
both input arrays. -/
def intersect1d (a b : List ℕ) : List ℕ :=
  (a.toFinset ∩ b.toFinset).sort (· ≤ ·)

/-- The per-frame inputs the loop body consumes from its collaborators. -/
structure FrameInput where
  maskFrame : List ℕ
  verts : List Vec3
  vertColors : List Vec3
  used_indices : List ℕ

/-- Run configuration relevant to branch selection in the loop body. -/
structure DriverConfig where
  touchly1 : Bool
  hasTransformations : Bool
  hasMask : Bool

/-- Cross-frame state: the 1-indexed frame counter, the background cloud's
parallel arrays, and a count of mask-video reads (observability of line
274). -/
structure DriverState where
  frame_n : ℕ
  bg_points : List Vec3
  bg_point_colors : List Vec3
  maskReads : ℕ

/-- `new_points = np.asarray(mesh.vertices)[points_2_keep]` (line 284). -/
def new_points (inp : FrameInput) : List Vec3 :=
  (intersect1d inp.used_indices (bg_mask_indices inp.maskFrame)).map
    (fun i => inp.verts.getD i (0, 0, 0))

/-- `new_colors = np.asarray(mesh.vertex_colors)[points_2_keep]` (line 285). -/
def new_colors (inp : FrameInput) : List Vec3 :=
  (intersect1d inp.used_indices (bg_mask_indices inp.maskFrame)).map
    (fun i => inp.vertColors.getD i (0, 0, 0))

/-- One iteration of the main loop, restricted to the state the claims are
about.  `down_sample` abstracts `depth_map_tools.perspective_aware_down_sample`,
taking the cell size and the cloud's parallel arrays. -/
def step_frame (cfg : DriverConfig)
    (down_sample : ℚ → List Vec3 × List Vec3 → List Vec3 × List Vec3)
    (inp : FrameInput) (s : DriverState) : DriverState :=
  let n := s.frame_n + 1
  if cfg.hasTransformations = false ∧ cfg.touchly1 = true then
    { s with frame_n := n }
  else if cfg.hasMask then
    let pts := s.bg_points ++ new_points inp
    let cols := s.bg_point_colors ++ new_colors inp
    if n % 10 = 0 then
      let dsd := down_sample (3 / 1000) (pts, cols)
      { frame_n := n, bg_points := dsd.1, bg_point_colors := dsd.2,
        maskReads := s.maskReads + 1 }
    else
      { frame_n := n, bg_points := pts, bg_point_colors := cols,
        maskReads := s.maskReads + 1 }
  else
    { s with frame_n := n }

/-- The whole run: fold the loop body over the stream of frame inputs. -/
def run_frames (cfg : DriverConfig)
    (down_sample : ℚ → List Vec3 × List Vec3 → List Vec3 × List Vec3) :
    List FrameInput → DriverState → DriverState
  | [], s => s
  | inp :: rest, s => run_frames cfg down_sample rest (step_frame cfg down_sample inp s)

end StereoRerender

namespace StereoRerender

/-- Shared shape lemma: on an accumulation frame (mask supplied, fast path
not taken) whose counter is not a multiple of 10, the loop body only appends
the candidate points/colors; `down_sample` is not consulted. -/
theorem step_frame_no_trigger (cfg : DriverConfig)
    (down_sample : ℚ → List Vec3 × List Vec3 → List Vec3 × List Vec3)
    (inp : FrameInput) (s : DriverState)
    (hmask : cfg.hasMask = true)
    (hslow : ¬(cfg.hasTransformations = false ∧ cfg.touchly1 = true))
    (htrig : (s.frame_n + 1) % 10 ≠ 0) :
    step_frame cfg down_sample inp s =
      { frame_n := s.frame_n + 1,
        bg_points := s.bg_points ++ new_points inp,
        bg_point_colors := s.bg_point_colors ++ new_colors inp,
        maskReads := s.maskReads + 1 } := by
  unfold step_frame
  rw [if_neg hslow, if_pos (by rw [hmask]), if_neg htrig]

/-- Shared shape lemma: on an accumulation frame whose counter is a multiple
of 10, the appended cloud is handed to `down_sample` with cell size
`0.003 = 3/1000` and replaced by its result. -/
theorem step_frame_trigger (cfg : DriverConfig)
    (down_sample : ℚ → List Vec3 × List Vec3 → List Vec3 × List Vec3)
    (inp : FrameInput) (s : DriverState)
    (hmask : cfg.hasMask = true)
    (hslow : ¬(cfg.hasTransformations = false ∧ cfg.touchly1 = true))
    (htrig : (s.frame_n + 1) % 10 = 0) :
    step_frame cfg down_sample inp s =
      { frame_n := s.frame_n + 1,
        bg_points := (down_sample (3 / 1000)
          (s.bg_points ++ new_points inp,
            s.bg_point_colors ++ new_colors inp)).1,
        bg_point_colors := (down_sample (3 / 1000)
          (s.bg_points ++ new_points inp,
            s.bg_point_colors ++ new_colors inp)).2,
        maskReads := s.maskReads + 1 } := by
  unfold step_frame
  rw [if_neg hslow, if_pos (by rw [hmask]), if_pos htrig]

/-- C5: with background accumulation active, the cloud is decimated (passed
to the down-sampler with cell size `3/1000`) exactly on frames whose
1-indexed counter is a multiple of 10; on every other frame it is only
appended to — the result does not depend on `down_sample` at all. -/
theorem decimation_cadence (cfg : DriverConfig)
    (down_sample : ℚ → List Vec3 × List Vec3 → List Vec3 × List Vec3)
    (inp : FrameInput) (s : DriverState)
    (hmask : cfg.hasMask = true)
    (hslow : ¬(cfg.hasTransformations = false ∧ cfg.touchly1 = true)) :
    ((s.frame_n + 1) % 10 ≠ 0 →
        step_frame cfg down_sample inp s =
          { frame_n := s.frame_n + 1,
            bg_points := s.bg_points ++ new_points inp,
            bg_point_colors := s.bg_point_colors ++ new_colors inp,
            maskReads := s.maskReads + 1 }) ∧
      ((s.frame_n + 1) % 10 = 0 →
        step_frame cfg down_sample inp s =
          { frame_n := s.frame_n + 1,
            bg_points := (down_sample (3 / 1000)
              (s.bg_points ++ new_points inp,
                s.bg_point_colors ++ new_colors inp)).1,
            bg_point_colors := (down_sample (3 / 1000)
              (s.bg_points ++ new_points inp,
                s.bg_point_colors ++ new_colors inp)).2,
            maskReads := s.maskReads + 1 }) :=
  ⟨step_frame_no_trigger cfg down_sample inp s hmask hslow,
    step_frame_trigger cfg down_sample inp s hmask hslow⟩

/-- C5 witness: frame counter 10 (state counter 9) triggers decimation with
an all-dropping down-sampler; the appended cloud is replaced by its output. -/
theorem decimation_cadence_witness :
    step_frame ⟨false, false, true⟩ (fun _ _ => ([], []))
        ⟨[0], [(5, 5, 5)], [(1, 1, 1)], [0]⟩ ⟨9, [], [], 0⟩ =
      { frame_n := 10,
        bg_points := ((fun (_ : ℚ) (_ : List Vec3 × List Vec3) =>
          (([] : List Vec3), ([] : List Vec3))) (3 / 1000)
            (([] : List Vec3) ++ new_points ⟨[0], [(5, 5, 5)], [(1, 1, 1)], [0]⟩,
              ([] : List Vec3) ++ new_colors ⟨[0], [(5, 5, 5)], [(1, 1, 1)], [0]⟩)).1,
        bg_point_colors := ((fun (_ : ℚ) (_ : List Vec3 × List Vec3) =>
          (([] : List Vec3), ([] : List Vec3))) (3 / 1000)
            (([] : List Vec3) ++ new_points ⟨[0], [(5, 5, 5)], [(1, 1, 1)], [0]⟩,
              ([] : List Vec3) ++ new_colors ⟨[0], [(5, 5, 5)], [(1, 1, 1)], [0]⟩)).2,
        maskReads := 1 } :=
  (decimation_cadence ⟨false, false, true⟩ (fun _ _ => ([], []))
      ⟨[0], [(5, 5, 5)], [(1, 1, 1)], [0]⟩ ⟨9, [], [], 0⟩ rfl
      (by simp)).2 (by decide)

/-- C6: on an accumulation frame without a decimation trigger, both parallel
arrays grow by exactly the cardinality of the (unordered) intersection of
the not-an-edge index set and the sub-128 mask index set; the computed
intersection list is duplicate-free, and it is invariant under reordering of
either input list. -/
theorem background_growth (cfg : DriverConfig)
    (down_sample : ℚ → List Vec3 × List Vec3 → List Vec3 × List Vec3)
    (inp : FrameInput) (s : DriverState)
    (hmask : cfg.hasMask = true)
    (hslow : ¬(cfg.hasTransformations = false ∧ cfg.touchly1 = true))
    (htrig : (s.frame_n + 1) % 10 ≠ 0) :
    ((step_frame cfg down_sample inp s).bg_points.length =
        s.bg_points.length +
          (inp.used_indices.toFinset ∩
            (bg_mask_indices inp.maskFrame).toFinset).card ∧
      (step_frame cfg down_sample inp s).bg_point_colors.length =
        s.bg_point_colors.length +
          (inp.used_indices.toFinset ∩
            (bg_mask_indices inp.maskFrame).toFinset).card) ∧
      (intersect1d inp.used_indices (bg_mask_indices inp.maskFrame)).Nodup ∧
      ∀ used mask : List ℕ, used.Perm inp.used_indices →
        mask.Perm (bg_mask_indices inp.maskFrame) →
        intersect1d used mask =
          intersect1d inp.used_indices (bg_mask_indices inp.maskFrame) := by
  have hK : (intersect1d inp.used_indices (bg_mask_indices inp.maskFrame)).length =
      (inp.used_indices.toFinset ∩
        (bg_mask_indices inp.maskFrame).toFinset).card := by
    unfold intersect1d
    exact Finset.length_sort _
  rw [step_frame_no_trigger cfg down_sample inp s hmask hslow htrig]
  refine ⟨⟨?_, ?_⟩, ?_, ?_⟩
  · simp [new_points, hK]
  · simp [new_colors, hK]
  · exact Finset.sort_nodup _ _
  · intro used mask hu hm
    unfold intersect1d
    rw [List.toFinset_eq_of_perm _ _ hu, List.toFinset_eq_of_perm _ _ hm]

/-- C6 witness: mask `[0,0,200]` marks indices `{0,1}` as background; the
not-an-edge list `[2,0,0]` (with a duplicate) intersects it in the single
index `0`, so the empty cloud grows to exactly one point. -/
theorem background_growth_witness :
    (step_frame ⟨false, false, true⟩ (fun _ pc => pc)
        ⟨[0, 0, 200], [(1, 1, 1), (2, 2, 2), (3, 3, 3)],
          [(0, 0, 0), (0, 0, 0), (0, 0, 0)], [2, 0, 0]⟩
        ⟨0, [], [], 0⟩).bg_points.length = 0 + 1 := by
  rw [(background_growth ⟨false, false, true⟩ (fun _ pc => pc)
      ⟨[0, 0, 200], [(1, 1, 1), (2, 2, 2), (3, 3, 3)],
        [(0, 0, 0), (0, 0, 0), (0, 0, 0)], [2, 0, 0]⟩
      ⟨0, [], [], 0⟩ rfl (by simp) (by decide)).1.1]
  decide

/-- C10: with Touchly-mono selected and no transformation stream, every
frame takes the fast path: however many frames are processed and whether or
not a mask video is configured, no mask frame is read and the background
cloud's arrays stay exactly in their initial state. -/
theorem touchly1_fast_path_preserves_background (cfg : DriverConfig)
    (down_sample : ℚ → List Vec3 × List Vec3 → List Vec3 × List Vec3)
    (inps : List FrameInput) (s : DriverState)
    (ht : cfg.touchly1 = true) (htr : cfg.hasTransformations = false) :
    (run_frames cfg down_sample inps s).bg_points = s.bg_points ∧
      (run_frames cfg down_sample inps s).bg_point_colors =
        s.bg_point_colors ∧
      (run_frames cfg down_sample inps s).maskReads = s.maskReads ∧
      (run_frames cfg down_sample inps s).frame_n =
        s.frame_n + inps.length := by
  induction inps generalizing s with
  | nil => simp [run_frames]
  | cons inp rest ih =>
      rw [run_frames]
      have hstep : step_frame cfg down_sample inp s =
          { s with frame_n := s.frame_n + 1 } := by
        unfold step_frame
        rw [if_pos ⟨htr, ht⟩]
      rw [hstep]
      obtain ⟨h1, h2, h3, h4⟩ := ih { s with frame_n := s.frame_n + 1 }
      refine ⟨h1, h2, h3, ?_⟩
      rw [h4]
      simp [List.length_cons]
      omega

/-- C10 witness: a Touchly-mono run without transformations but with a mask
video, over three frames that would otherwise contribute background points,
reads no mask frame and leaves the cloud empty. -/
theorem touchly1_fast_path_witness :
    (run_frames ⟨true, false, true⟩ (fun _ pc => pc)
        [⟨[0], [(1, 1, 1)], [(2, 2, 2)], [0]⟩,
          ⟨[0], [(1, 1, 1)], [(2, 2, 2)], [0]⟩,
          ⟨[0], [(1, 1, 1)], [(2, 2, 2)], [0]⟩]
        ⟨0, [], [], 0⟩).bg_points = [] ∧
      (run_frames ⟨true, false, true⟩ (fun _ pc => pc)
        [⟨[0], [(1, 1, 1)], [(2, 2, 2)], [0]⟩,
          ⟨[0], [(1, 1, 1)], [(2, 2, 2)], [0]⟩,
          ⟨[0], [(1, 1, 1)], [(2, 2, 2)], [0]⟩]
        ⟨0, [], [], 0⟩).maskReads = 0 :=
  ⟨(touchly1_fast_path_preserves_background ⟨true, false, true⟩ (fun _ pc => pc)
      _ ⟨0, [], [], 0⟩ rfl rfl).1,
    (touchly1_fast_path_preserves_background ⟨true, false, true⟩ (fun _ pc => pc)
      _ ⟨0, [], [], 0⟩ rfl rfl).2.2.1⟩

end StereoRerender

namespace StereoRerender

/-! ### Frame layout assembly (`stereo_rerender.py` lines 174–183, 250, 327,
372–380)

The output size is chosen once from the format flags; per frame the
Touchly-mono path stacks color above depth with `cv2.vconcat`, while the
stereo paths build `imgs = [left_image, right_image]`, append the left-eye
depth buffer when `--touchly0`, and concatenate with `cv2.hconcat`. -/

/-- An 8-bit RGB pixel. -/
abbrev Pix := ℕ × ℕ × ℕ

/-- An image as a list of rows of pixels. -/
abbrev Image := List (List Pix)

/-- `cv2.hconcat` of two images: rows concatenated pairwise. -/
def hconcat2 (a b : Image) : Image := List.zipWith (· ++ ·) a b

/-- `cv2.hconcat(imgs)` for a nonempty list of images. -/
def hconcat : List Image → Image
  | [] => []
  | img :: rest => rest.foldl hconcat2 img

/-- `cv2.vconcat(imgs)`: all rows of the first image, then of the next. -/
def vconcat (imgs : List Image) : Image := imgs.foldl (· ++ ·) []

/-- Lines 174–183: `(width, height)` of the output frame per format flags. -/
def out_size (touchly1 touchly0 : Bool) (out_width out_height : ℕ) : ℕ × ℕ :=
  if touchly1 then (out_width, out_height * 2)
  else if touchly0 then (out_width * 3, out_height)
  else (out_width * 2, out_height)

/-- Lines 372–374: the horizontal buffer list — left color, right color,
plus the left-eye depth when it was rendered (Touchly 3-in-1). -/
def stereo_imgs (left right : Image) : Option Image → List Image
  | none => [left, right]
  | some d => [left, right, d]

/-- The per-frame assembly: Touchly-mono stacks color above depth
(lines 250 and 327); otherwise the stereo image list is concatenated
horizontally (line 380), with the left-eye depth present exactly for
Touchly 3-in-1 (lines 353 and 373–374). -/
def assemble_frame (touchly1 touchly0 : Bool)
    (color touchly_depth left right left_depth : Image) : Image :=
  if touchly1 then vconcat [color, touchly_depth]
  else hconcat (stereo_imgs left right
    (if touchly0 then some left_depth else none))

/-- `img` consists of `h` rows, each of `w` pixels. -/
def HasDims (img : Image) (w h : ℕ) : Prop :=
  img.length = h ∧ ∀ i, (hi : i < img.length) → img[i].length = w

theorem hconcat2_dims {a b : Image} {wa wb h : ℕ}
    (ha : HasDims a wa h) (hb : HasDims b wb h) :
    HasDims (hconcat2 a b) (wa + wb) h := by
  obtain ⟨hal, har⟩ := ha
  obtain ⟨hbl, hbr⟩ := hb
  constructor
  · simp [hconcat2, hal, hbl]
  · intro i hi
    have hi' : i < (List.zipWith (· ++ ·) a b).length := hi
    rw [List.length_zipWith, hal, hbl, min_self] at hi'
    unfold hconcat2
    rw [List.getElem_zipWith]
    rw [List.length_append, har i (by omega), hbr i (by omega)]

theorem vconcat2_dims {a b : Image} {w ha hb : ℕ}
    (hda : HasDims a w ha) (hdb : HasDims b w hb) :
    HasDims (a ++ b) w (ha + hb) := by
  obtain ⟨hal, har⟩ := hda
  obtain ⟨hbl, hbr⟩ := hdb
  constructor
  · simp [hal, hbl]
  · intro i hi
    by_cases hcase : i < a.length
    · rw [List.getElem_append_left hcase]
      exact har i hcase
    · rw [List.length_append] at hi
      rw [List.getElem_append_right (by omega)]
      exact hbr _ (by omega)

/-- C7: with all constituent buffers of one shared `w × h` size, the
assembled frame's dimensions are exactly those dictated by the format
(`w × 2h` for Touchly mono+depth, `3w × h` for Touchly 3-in-1, `2w × h` for
plain/VR180 stereo), the Touchly-mono frame is the color rows followed by
the depth rows, and each stereo row is the left-color row, then the
right-color row, then — exactly for 3-in-1 — the left-depth row. -/
theorem assemble_frame_layout (touchly1 touchly0 : Bool)
    (color touchly_depth left right left_depth : Image) (w h : ℕ)
    (hc : HasDims color w h) (hd : HasDims touchly_depth w h)
    (hl : HasDims left w h) (hr : HasDims right w h)
    (hld : HasDims left_depth w h) :
    HasDims
        (assemble_frame touchly1 touchly0 color touchly_depth left right
          left_depth)
        (out_size touchly1 touchly0 w h).1
        (out_size touchly1 touchly0 w h).2 ∧
      (touchly1 = true →
        assemble_frame touchly1 touchly0 color touchly_depth left right
            left_depth = color ++ touchly_depth) ∧
      (touchly1 = false → ∀ i, i < h →
        (assemble_frame touchly1 touchly0 color touchly_depth left right
            left_depth).getD i [] =
          (left.getD i [] ++ right.getD i []) ++
            (if touchly0 then left_depth.getD i [] else [])) := by
  have hrow2 : ∀ (a b : Image) (wa wb : ℕ), HasDims a wa h → HasDims b wb h →
      ∀ i, i < h → (hconcat2 a b).getD i [] = a.getD i [] ++ b.getD i [] := by
    intro a b wa wb hda hdb i hi
    have hal := hda.1
    have hbl := hdb.1
    have hlen : (hconcat2 a b).length = h := (hconcat2_dims hda hdb).1
    rw [List.getD_eq_getElem _ _ (by omega)]
    unfold hconcat2
    rw [List.getElem_zipWith]
    rw [List.getD_eq_getElem _ _ (by omega), List.getD_eq_getElem _ _ (by omega)]
  cases touchly1 with
  | true =>
      have hv : assemble_frame true touchly0 color touchly_depth left right
          left_depth = color ++ touchly_depth := by
        simp [assemble_frame, vconcat]
      refine ⟨?_, fun _ => hv, fun hff => nomatch hff⟩
      rw [hv]
      simpa [out_size, mul_two] using vconcat2_dims hc hd
  | false =>
      cases touchly0 with
      | true =>
          have hv : assemble_frame false true color touchly_depth left right
              left_depth = hconcat2 (hconcat2 left right) left_depth := by
            simp [assemble_frame, stereo_imgs, hconcat]
          have hdims2 : HasDims (hconcat2 left right) (w + w) h :=
            hconcat2_dims hl hr
          refine ⟨?_, ?_, ?_⟩
          · rw [hv]
            have := hconcat2_dims hdims2 hld
            simpa [out_size, show w + w + w = w * 3 by ring] using this
          · exact fun hff => nomatch hff
          · intro _ i hi
            rw [hv, hrow2 _ _ (w + w) w hdims2 hld i hi,
              hrow2 _ _ w w hl hr i hi]
            simp
      | false =>
          have hv : assemble_frame false false color touchly_depth left right
              left_depth = hconcat2 left right := by
            simp [assemble_frame, stereo_imgs, hconcat]
          refine ⟨?_, ?_, ?_⟩
          · rw [hv]
            simpa [out_size, show w + w = w * 2 by ring]
              using hconcat2_dims hl hr
          · exact fun hff => nomatch hff
          · intro _ i hi
            rw [hv, hrow2 _ _ w w hl hr i hi]
            simp

/-- C7 witness: 1×1 buffers assembled in Touchly 3-in-1 mode give a 3×1
frame. -/
theorem assemble_frame_layout_witness :
    HasDims
      (assemble_frame false true [[(9, 9, 9)]] [[(8, 8, 8)]] [[(1, 1, 1)]]
        [[(2, 2, 2)]] [[(3, 3, 3)]]) 3 1 := by
  have h := (assemble_frame_layout false true [[(9, 9, 9)]] [[(8, 8, 8)]]
      [[(1, 1, 1)]] [[(2, 2, 2)]] [[(3, 3, 3)]] 1 1
      ⟨rfl, by simp⟩ ⟨rfl, by simp⟩ ⟨rfl, by simp⟩ ⟨rfl, by simp⟩
      ⟨rfl, by simp⟩).1
  simpa [out_size] using h

end StereoRerender

namespace StereoRerender

/-! ### Rectilinear → 180° equirectangular remap (`stereo_rerender.py`
lines 24–85)

Output pixels are mapped to spherical angles spanning `[-π/2, π/2]` linearly
across the image; a pixel is valid when both angles are within half the
input field of view, in which case the pinhole projection is inverted with
focal length `center / tan(half_fov)`; invalid pixels get source coordinate
`-1` so that `cv2.remap` with `BORDER_CONSTANT` paints them black. -/

open scoped Classical

/-- Pixel with real-valued channels (the float arithmetic of `cv2.remap`). -/
abbrev RPix := Fin 3 → ℝ

/-- The black fill colour `(0, 0, 0)`. -/
def rblack : RPix := 0

/-- Source fetch with `BORDER_CONSTANT`: out-of-range coordinates give the
black border value. -/
def borderPix (img : ℕ → ℕ → RPix) (W H : ℕ) (y x : ℤ) : RPix :=
  if 0 ≤ y ∧ y < (H : ℤ) ∧ 0 ≤ x ∧ x < (W : ℤ) then img y.toNat x.toNat
  else rblack

/-- `cv2.remap` with `INTER_LINEAR`: bilinear interpolation of the four
integer neighbours of the source coordinate `(mx, my)`. -/
noncomputable def remapPix (img : ℕ → ℕ → RPix) (W H : ℕ) (mx my : ℝ) :
    RPix :=
  ((1 - (mx - ⌊mx⌋)) * (1 - (my - ⌊my⌋))) • borderPix img W H ⌊my⌋ ⌊mx⌋ +
    ((mx - ⌊mx⌋) * (1 - (my - ⌊my⌋))) • borderPix img W H ⌊my⌋ (⌊mx⌋ + 1) +
    ((1 - (mx - ⌊mx⌋)) * (my - ⌊my⌋)) • borderPix img W H (⌊my⌋ + 1) ⌊mx⌋ +
    ((mx - ⌊mx⌋) * (my - ⌊my⌋)) • borderPix img W H (⌊my⌋ + 1) (⌊mx⌋ + 1)

/-- `(n - 1) / 2.0`: the centre coordinate of an `n`-pixel axis (lines
41–42). -/
noncomputable def eq_center (n : ℕ) : ℝ := ((n : ℝ) - 1) / 2

/-- `theta = (x - cx) / cx * (π/2)` (line 52). -/
noncomputable def eq_theta (W j : ℕ) : ℝ :=
  ((j : ℝ) - eq_center W) / eq_center W * (Real.pi / 2)

/-- `phi = (y - cy) / cy * (π/2)` (line 54). -/
noncomputable def eq_phi (H i : ℕ) : ℝ :=
  ((i : ℝ) - eq_center H) / eq_center H * (Real.pi / 2)

/-- `np.radians(input_fov / 2.0)` (line 57). -/
noncomputable def half_input_fov (fov : ℝ) : ℝ :=
  fov / 2 * (Real.pi / 180)

/-- `valid_mask` (line 65): both angles within half the input FOV. -/
def eq_valid (W H : ℕ) (fov : ℝ) (i j : ℕ) : Prop :=
  |eq_theta W j| ≤ half_input_fov fov ∧ |eq_phi H i| ≤ half_input_fov fov

/-- `map_x = f_x * tan(theta) + cx`, forced to `-1` outside the valid mask
(lines 61, 69, 74). -/
noncomputable def eq_map_x (W H : ℕ) (fov : ℝ) (i j : ℕ) : ℝ :=
  if eq_valid W H fov i j then
    eq_center W / Real.tan (half_input_fov fov) * Real.tan (eq_theta W j) +
      eq_center W
  else -1

/-- `map_y = f_y * tan(phi) + cy`, forced to `-1` outside the valid mask
(lines 62, 70, 75). -/
noncomputable def eq_map_y (W H : ℕ) (fov : ℝ) (i j : ℕ) : ℝ :=
  if eq_valid W H fov i j then
    eq_center H / Real.tan (half_input_fov fov) * Real.tan (eq_phi H i) +
      eq_center H
  else -1

/-- Lines 24–85 as a whole: per output pixel, remap the input at the
computed source coordinates.  `H, W = image.shape[:2]`. -/
noncomputable def convert_to_equirectangular (img : List (List RPix))
    (fov : ℝ) : List (List RPix) :=
  (List.range img.length).map fun i =>
    (List.range (img.headD []).length).map fun j =>
      remapPix (fun y x => (img.getD y []).getD x rblack)
        (img.headD []).length img.length
        (eq_map_x (img.headD []).length img.length fov i j)
        (eq_map_y (img.headD []).length img.length fov i j)

theorem remapPix_neg_one (img : ℕ → ℕ → RPix) (W H : ℕ) :
    remapPix img W H (-1) (-1) = rblack := by
  unfold remapPix
  have hfl : ⌊(-1 : ℝ)⌋ = -1 := by
    rw [show (-1 : ℝ) = ((-1 : ℤ) : ℝ) by norm_num, Int.floor_intCast]
  rw [hfl]
  have hb : borderPix img W H (-1) (-1) = rblack := by
    unfold borderPix
    rw [if_neg]
    push_neg
    intro h
    omega
  rw [hb]
  push_cast
  norm_num

theorem convert_pixel (img : List (List RPix)) (fov : ℝ) (i j : ℕ)
    (hi : i < img.length) (hj : j < (img.headD []).length) :
    ((convert_to_equirectangular img fov).getD i []).getD j rblack =
      remapPix (fun y x => (img.getD y []).getD x rblack)
        (img.headD []).length img.length
        (eq_map_x (img.headD []).length img.length fov i j)
        (eq_map_y (img.headD []).length img.length fov i j) := by
  have h1 : (convert_to_equirectangular img fov).getD i [] =
      (List.range (img.headD []).length).map fun j =>
        remapPix (fun y x => (img.getD y []).getD x rblack)
          (img.headD []).length img.length
          (eq_map_x (img.headD []).length img.length fov i j)
          (eq_map_y (img.headD []).length img.length fov i j) := by
    unfold convert_to_equirectangular
    rw [List.getD_eq_getElem _ _ (by simpa using hi)]
    rw [List.getElem_map, List.getElem_range]
  rw [h1]
  rw [List.getD_eq_getElem _ _ (by simpa using hj)]
  rw [List.getElem_map, List.getElem_range]

theorem abs_tan_le_of_abs_le {x h : ℝ} (hxh : |x| ≤ h)
    (hh : h < Real.pi / 2) : |Real.tan x| ≤ Real.tan h := by
  have h0 : 0 ≤ h := (abs_nonneg x).trans hxh
  have hpi : 0 < Real.pi := Real.pi_pos
  have hxle : x ≤ h := (le_abs_self x).trans hxh
  have hxge : -h ≤ x := by
    have hna := neg_abs_le x
    linarith
  have hmemh : h ∈ Set.Ioo (-(Real.pi / 2)) (Real.pi / 2) := ⟨by linarith, hh⟩
  rcases le_or_lt 0 x with hx0 | hx0
  · rw [abs_of_nonneg
      (Real.tan_nonneg_of_nonneg_of_le_pi_div_two hx0 (by linarith))]
    exact Real.strictMonoOn_tan.monotoneOn ⟨by linarith, by linarith⟩ hmemh
      hxle
  · have htan : Real.tan x ≤ 0 :=
      Real.tan_nonpos_of_nonpos_of_neg_pi_div_two_le (le_of_lt hx0)
        (by linarith)
    rw [abs_of_nonpos htan, ← Real.tan_neg]
    exact Real.strictMonoOn_tan.monotoneOn ⟨by linarith, by linarith⟩ hmemh
      (by linarith)

theorem map_formula_in_range {c hf t : ℝ} (hc : 0 < c) (hhf0 : 0 < hf)
    (hhflt : hf < Real.pi / 2) (ht : |t| ≤ hf) :
    0 ≤ c / Real.tan hf * Real.tan t + c ∧
      c / Real.tan hf * Real.tan t + c ≤ 2 * c := by
  have htan0 : 0 < Real.tan hf :=
    Real.tan_pos_of_pos_of_lt_pi_div_two hhf0 hhflt
  have habs : |Real.tan t| ≤ Real.tan hf := abs_tan_le_of_abs_le ht hhflt
  have hfx : 0 < c / Real.tan hf := div_pos hc htan0
  have hkey : |c / Real.tan hf * Real.tan t| ≤ c := by
    rw [abs_mul, abs_of_pos hfx]
    calc c / Real.tan hf * |Real.tan t| ≤ c / Real.tan hf * Real.tan hf :=
          mul_le_mul_of_nonneg_left habs (le_of_lt hfx)
      _ = c := div_mul_cancel₀ c (ne_of_gt htan0)
  have hb := abs_le.1 hkey
  constructor <;> linarith [hb.1, hb.2]

end StereoRerender

namespace StereoRerender

/-- C8: for a rectangular `H×W` input (axes of at least 2 pixels) and an
input FOV strictly between 0° and 180°, the converted image has identical
dimensions; every output pixel outside the valid angular mask — `|theta|` or
`|phi|` exceeding half the FOV, the angles linear in position across
`[-90°, 90°]` — is exactly black; and for every pixel inside the mask the
inverted-pinhole source coordinates stay within the source image (so valid
pixels are sampled from the image, not the border fill). -/
theorem convert_to_equirectangular_spec (img : List (List RPix)) (fov : ℝ)
    (W H : ℕ) (hH : img.length = H)
    (hrect : ∀ i, (hi : i < img.length) → img[i].length = W)
    (hW2 : 2 ≤ W) (hH2 : 2 ≤ H) (hfov0 : 0 < fov) (hfov1 : fov < 180) :
    ((convert_to_equirectangular img fov).length = H ∧
      ∀ i, (hi : i < (convert_to_equirectangular img fov).length) →
        (convert_to_equirectangular img fov)[i].length = W) ∧
      (∀ i j, i < H → j < W → ¬ eq_valid W H fov i j →
        ((convert_to_equirectangular img fov).getD i []).getD j rblack =
          rblack) ∧
      (∀ i j, i < H → j < W → eq_valid W H fov i j →
        0 ≤ eq_map_x W H fov i j ∧ eq_map_x W H fov i j ≤ (W : ℝ) - 1 ∧
          0 ≤ eq_map_y W H fov i j ∧ eq_map_y W H fov i j ≤ (H : ℝ) - 1) := by
  have hhead : (img.headD []).length = W := by
    cases himg : img with
    | nil =>
        rw [himg] at hH
        simp at hH
        omega
    | cons r t =>
        subst himg
        have h0 := hrect 0 (by simp)
        simpa using h0
  refine ⟨⟨?_, ?_⟩, ?_, ?_⟩
  · simp [convert_to_equirectangular, hH]
  · intro i hi
    unfold convert_to_equirectangular
    rw [List.getElem_map]
    simpa using hhead
  · intro i j hi hj hnv
    rw [convert_pixel img fov i j (by rw [hH]; exact hi)
      (by rw [hhead]; exact hj)]
    rw [hhead, hH]
    simp only [eq_map_x, eq_map_y, if_neg hnv]
    exact remapPix_neg_one _ _ _
  · intro i j hi hj hv
    have hπ := Real.pi_pos
    have hcW : 0 < eq_center W := by
      unfold eq_center
      have hc : (2 : ℝ) ≤ (W : ℝ) := by exact_mod_cast hW2
      linarith
    have hcH : 0 < eq_center H := by
      unfold eq_center
      have hc : (2 : ℝ) ≤ (H : ℝ) := by exact_mod_cast hH2
      linarith
    have hhf0 : 0 < half_input_fov fov := by
      unfold half_input_fov
      have h180 : 0 < Real.pi / 180 := by positivity
      exact mul_pos (by linarith) h180
    have hhflt : half_input_fov fov < Real.pi / 2 := by
      unfold half_input_fov
      have h180 : 0 < Real.pi / 180 := by positivity
      calc fov / 2 * (Real.pi / 180) < 90 * (Real.pi / 180) := by
            apply mul_lt_mul_of_pos_right _ h180
            linarith
        _ = Real.pi / 2 := by ring
    have hx := map_formula_in_range hcW hhf0 hhflt hv.1
    have hy := map_formula_in_range hcH hhf0 hhflt hv.2
    have h2cW : 2 * eq_center W = (W : ℝ) - 1 := by unfold eq_center; ring
    have h2cH : 2 * eq_center H = (H : ℝ) - 1 := by unfold eq_center; ring
    unfold eq_map_x eq_map_y
    rw [if_pos hv, if_pos hv]
    exact ⟨hx.1, by linarith [hx.2], hy.1, by linarith [hy.2]⟩

/-- C8 witness: a white-free 2×2 image at FOV 100° converts to an image of
the same height (and, via the same theorem, the same width). -/
theorem convert_to_equirectangular_spec_witness :
    (convert_to_equirectangular [[rblack, rblack], [rblack, rblack]]
        100).length = 2 :=
  (convert_to_equirectangular_spec [[rblack, rblack], [rblack, rblack]] 100
      2 2 rfl
      (fun i hi => by
        match i with
        | 0 => rfl
        | 1 => rfl
        | n + 2 => simp at hi)
      (by norm_num)
      (by norm_num) (by norm_num) (by norm_num)).1.1

end StereoRerender
